import Mathlib

/-!
Verification of the archive-extraction and directory-reconciliation flow of
`shell-scripts/temp-extract-archive.py`.

The filesystem is modelled as a finite tree (`FSTree`): a directory holds an
ordered listing of named entries, mirroring the order in which `os.listdir`
returns them; a plain file carries its contents.  Every function of the script
that the claims touch is translated into an executable Lean definition over
this model; Python exceptions become explicit error values.  Recursion that in
Python runs on the real directory tree is given an explicit fuel parameter;
exhausting the fuel yields the artificial outcome `outOfFuel`, which never
occurs when the fuel is at least the size of the tree.
-/

set_option maxHeartbeats 1600000

namespace TempExtract

/-! ## String and path helpers (models of `os.path` / `str` operations) -/

/-- Model of `os.path.join(a, b)` (posixpath, two arguments): if `b` is
absolute it wins; otherwise a `/` separator is inserted unless `a` is empty or
already ends with `/`. -/
def pathJoin (a b : String) : String :=
  if b.data.head? = some '/' then b
  else if a = "" ∨ a.data.getLast? = some '/' then a ++ b
  else a ++ "/" ++ b

/-- Model of `str.lower()` (the script only lowercases ASCII extensions and
directory names). -/
def strToLower (s : String) : String := ⟨s.data.map Char.toLower⟩

/-- Python's `str.strip()` whitespace set. -/
def pyWhitespace (c : Char) : Bool :=
  c = ' ' ∨ c = '\t' ∨ c = '\n' ∨ c = '\r' ∨ c = '\x0b' ∨ c = '\x0c'

/-- Model of `str.strip()`: drop leading and trailing whitespace. -/
def pyStrip (s : String) : String :=
  ⟨((s.data.dropWhile pyWhitespace).reverse.dropWhile pyWhitespace).reverse⟩

/-- Index of the last occurrence of `c` in `cs`, or `-1` when absent
(model of `str.rfind`). -/
def rfindCharAux (c : Char) : List Char → Nat → Int → Int
  | [], _, acc => acc
  | x :: xs, i, acc => rfindCharAux c xs (i + 1) (if x = c then (i : Int) else acc)

/-- Model of `p.rfind(c)`. -/
def rfindChar (cs : List Char) (c : Char) : Int := rfindCharAux c cs 0 (-1)

/-- Extension part of `os.path.splitext(p)` (posixpath): the suffix starting at
the last `.`, provided that dot lies after the last `/` and at least one
character strictly between the two is not itself a dot (so dotfiles like
`.bashrc` have empty extension). -/
def splitextExt (p : String) : String :=
  let cs := p.data
  let sepIndex := rfindChar cs '/'
  let dotIndex := rfindChar cs '.'
  if dotIndex > sepIndex ∧
      ((cs.drop (sepIndex + 1).toNat).take (dotIndex - (sepIndex + 1)).toNat).any
        (fun c => c ≠ '.') then
    ⟨cs.drop dotIndex.toNat⟩
  else ""

/-- Model of `os.path.dirname(p)` (posixpath): everything up to the last `/`,
with trailing slashes stripped unless the head consists of slashes only. -/
def osPathDirname (p : String) : String :=
  let cs := p.data
  let head := cs.take (rfindChar cs '/' + 1).toNat
  if head ≠ [] ∧ head.any (fun c => c ≠ '/') then
    ⟨(head.reverse.dropWhile (fun c => c = '/')).reverse⟩
  else ⟨head⟩

/-! ## The filesystem model -/

/-- A node of the extracted tree: a plain file with its contents, or a
directory with an ordered listing of named entries (the order in which
`os.listdir` reports them). -/
inductive FSTree where
  | file (content : String)
  | dir (entries : List (String × FSTree))
deriving Repr

/-- Is the entry a directory?  Model of `os.path.isdir` on a listing entry. -/
def isDirT : FSTree → Bool
  | .dir _ => true
  | .file _ => false

/-- Names of the immediate subdirectories, in listing order: model of
`[entry for entry in os.listdir(base_dir) if os.path.isdir(...)]`. -/
def dirNames (es : List (String × FSTree)) : List String :=
  (es.filter (fun p => isDirT p.2)).map Prod.fst

/-- Names of the immediate plain files, in listing order. -/
def fileNames (es : List (String × FSTree)) : List String :=
  (es.filter (fun p => !isDirT p.2)).map Prod.fst

/-- Entry lookup by name (the model's `os.path.isdir`/`open` on a child). -/
def lookupEntry (es : List (String × FSTree)) (n : String) : Option FSTree :=
  (es.find? (fun p => p.1 = n)).map Prod.snd

/-- Removal of the entry named `n`: model of `os.unlink`/`os.rmdir`/the source
side of `os.rename` inside a directory.  (On a real filesystem sibling names
are distinct, so filtering removes exactly that entry.) -/
def removeEntry (es : List (String × FSTree)) (n : String) : List (String × FSTree) :=
  es.filter (fun p => ¬p.1 = n)

/-- In-place replacement of the subtree of the entry named `n`. -/
def updateEntry (es : List (String × FSTree)) (n : String) (t : FSTree) :
    List (String × FSTree) :=
  es.map (fun p => if p.1 = n then (n, t) else p)

/-- All members of the list pairwise distinct. -/
def allDiff : List String → Bool
  | [] => true
  | n :: ns => ns.all (fun m => ¬m = n) && allDiff ns

mutual

/-- A tree is a valid filesystem tree when sibling names are distinct at every
level (guaranteed on a real filesystem, where a directory cannot hold two
entries with the same name). -/
def FSTree.wf : FSTree → Bool
  | .file _ => true
  | .dir es => allDiff (es.map Prod.fst) && wfTrees es

def wfTrees : List (String × FSTree) → Bool
  | [] => true
  | (_, t) :: rest => t.wf && wfTrees rest

end

/-- Well-formedness of a directory listing. -/
def wfListing (es : List (String × FSTree)) : Bool :=
  allDiff (es.map Prod.fst) && wfTrees es

mutual

/-- The reconciliation invariant: at every depth, no two sibling directories
share a case-folded name. -/
def FSTree.reconciled : FSTree → Bool
  | .file _ => true
  | .dir es => allDiff ((dirNames es).map strToLower) && reconTrees es

def reconTrees : List (String × FSTree) → Bool
  | [] => true
  | (_, t) :: rest => t.reconciled && reconTrees rest

end

/-- The reconciliation invariant for a directory listing. -/
def reconciledListing (es : List (String × FSTree)) : Bool :=
  allDiff ((dirNames es).map strToLower) && reconTrees es

mutual

/-- Fuel sufficient for `mergeDirsIgnoreCase` to complete on a tree. -/
def FSTree.fuelBound : FSTree → Nat
  | .file _ => 0
  | .dir es => 2 + fuelBoundEntries es

def fuelBoundEntries : List (String × FSTree) → Nat
  | [] => 0
  | (_, t) :: rest => 1 + t.fuelBound + fuelBoundEntries rest

end

/-- The shape of a listing: names in order, and for each entry whether it is a
plain file (with its contents) or a directory.  Directory merging never
changes the shape of the target listing. -/
def shape (es : List (String × FSTree)) : List (String × Option String) :=
  es.map (fun p => (p.1, match p.2 with | .file c => some c | .dir _ => none))

/-! ## `_merge_files_in_directories` -/

/-- The exceptions the merging pass can raise.  `mergeFailure` carries the two
colliding paths in the order they appear in the `MergeFailureError` message
(local first, remote second).  `nameError` models the `NameError` raised by
the `s.path.join` typo on line 193 of the script (the name `s` is undefined,
so the entry-only-in-source branch always raises before calling `os.rename`).
`assertionError` models the `assert remote_dir != local_dir` at the top.
`osError` marks branches that are unreachable on a real filesystem (a merge or
recursion target that does not exist).  `outOfFuel` is the model's artificial
out-of-fuel outcome. -/
inductive MergeExc where
  | mergeFailure (localEntryPath remoteEntryPath : String)
  | nameError
  | assertionError
  | osError
  | outOfFuel
deriving Repr, DecidableEq

/-- Outcome of `_merge_files_in_directories` on the pair of directory listings
rooted at `remote` and `locl`: the exception raised (if any), the remaining
listing of the source directory (`none` once `os.rmdir(remote_dir)` has
removed it), and the resulting listing of the target directory. -/
structure MergeOutcome where
  exc : Option MergeExc
  remote : Option (List (String × FSTree))
  locl : List (String × FSTree)
deriving Repr

/-- Model of `_merge_files_in_directories(remote_dir, local_dir)`.

For each entry of the source listing in order: if an entry of the same name
exists in the target and both are plain files, the source copy is unlinked
without comparing contents; if exactly one of the two is a directory, a
`MergeFailureError` naming both paths is raised; if both are directories the
merge recurses; and if the name exists only in the source, the `os.rename`
call raises `NameError` because of the `s.path.join` typo.  After all entries
are processed the (now empty) source directory is removed.

The Python code snapshots `local_dir_entries` once; the model looks the name
up in the current target listing instead, which agrees with the snapshot
because merging never adds, removes or re-kinds an entry of the target (on a
well-formed listing). -/
def mergeFiles (fuel : Nat) (remotePath localPath : String)
    (remote locl : List (String × FSTree)) : MergeOutcome :=
  match fuel with
  | 0 => ⟨some .outOfFuel, some remote, locl⟩
  | fuel + 1 =>
    if remotePath = localPath then ⟨some .assertionError, some remote, locl⟩
    else
      match remote with
      | [] => ⟨none, none, locl⟩
      | (name, t) :: rest =>
        match lookupEntry locl name with
        | none => ⟨some .nameError, some ((name, t) :: rest), locl⟩
        | some u =>
          match t, u with
          | .file _, .file _ => mergeFiles fuel remotePath localPath rest locl
          | .dir rents, .dir lents =>
            let inner := mergeFiles fuel (pathJoin remotePath name)
              (pathJoin localPath name) rents lents
            match inner.exc with
            | none =>
              mergeFiles fuel remotePath localPath rest
                (updateEntry locl name (.dir inner.locl))
            | some e =>
              ⟨some e, some ((name, .dir (inner.remote.getD rents)) :: rest),
                updateEntry locl name (.dir inner.locl)⟩
          | _, _ =>
            ⟨some (.mergeFailure (pathJoin localPath name) (pathJoin remotePath name)),
              some ((name, t) :: rest), locl⟩

/-! ## `_merge_directories_ignore_case` -/

/-- First occurrences of each element, in order: the insertion order of the
keys of `collections.defaultdict` built by iterating a list. -/
def dedupFirst : List String → List String
  | [] => []
  | k :: ks => k :: (dedupFirst ks).filter (fun x => ¬x = k)

/-- Model of the `dir_map` of `_merge_directories_ignore_case`: the
case-folded keys in insertion order, each with the sibling directory names
that fold onto it (in listing order). -/
def buildGroups (names : List String) : List (String × List String) :=
  (dedupFirst (names.map strToLower)).map
    (fun k => (k, names.filter (fun n => strToLower n = k)))

/-- Model of `local_dir = (dirs - {k}).pop()`: an arbitrary group member that
is not the all-lowercase key itself.  `set.pop` is unconstrained; the model
fixes the first such member in listing order.  For a group of two or more
members the filtered list is nonempty, so the `[]` fallback is unreachable. -/
def groupTarget (k : String) (g : List String) : String :=
  match g.filter (fun n => ¬n = k) with
  | t :: _ => t
  | [] => k

/-- The members of a group left in `dir_map` after the merging loop: the group
itself when nothing was merged, otherwise just the merge target. -/
def groupSurvivors (k : String) (g : List String) : List String :=
  if g.length ≤ 1 then g else [groupTarget k g]

/-- The merging loop `for remote_dir in dirs: _merge_files_in_directories(...)`
of one group, threading the base directory listing.  A raised exception
propagates and aborts everything. -/
def mergeRemotes (fuel : Nat) (basePath localD : String) :
    List String → List (String × FSTree) →
      Except MergeExc (List (String × FSTree))
  | [], es => .ok es
  | r :: rs, es =>
    match lookupEntry es r, lookupEntry es localD with
    | some (.dir rents), some (.dir lents) =>
      let out := mergeFiles fuel (pathJoin basePath r) (pathJoin basePath localD)
        rents lents
      match out.exc with
      | none =>
        mergeRemotes fuel basePath localD rs
          (updateEntry (removeEntry es r) localD (.dir out.locl))
      | some e => .error e
    | _, _ => .error .osError

/-- The loop `for k, dirs in dir_map.items()` of
`_merge_directories_ignore_case`: groups with at most one member are skipped;
for the others every non-target member is merged into the target. -/
def processGroups (fuel : Nat) (basePath : String) :
    List (String × List String) → List (String × FSTree) →
      Except MergeExc (List (String × FSTree))
  | [], es => .ok es
  | (k, g) :: gs, es =>
    if g.length ≤ 1 then processGroups fuel basePath gs es
    else
      match mergeRemotes fuel basePath (groupTarget k g)
          (g.filter (fun n => ¬n = groupTarget k g)) es with
      | .error e => .error e
      | .ok es' => processGroups fuel basePath gs es'

mutual

/-- Model of `_merge_directories_ignore_case(base_dir)` acting on the listing
of `base_dir`: group the immediate subdirectory names by case-folded form,
merge every colliding group down to one directory, then recurse into every
surviving subdirectory (`itertools.chain.from_iterable(dir_map.values())`). -/
def mergeDirsIgnoreCase : Nat → String → List (String × FSTree) →
    Except MergeExc (List (String × FSTree))
  | 0, _, _ => .error .outOfFuel
  | fuel + 1, basePath, es =>
    let groups := buildGroups (dirNames es)
    match processGroups (fuel + 1) basePath groups es with
    | .error e => .error e
    | .ok es1 =>
      recurseSurvivors fuel basePath
        (groups.flatMap (fun p => groupSurvivors p.1 p.2)) es1

/-- The final loop of `_merge_directories_ignore_case`: recurse into each
surviving directory. -/
def recurseSurvivors : Nat → String → List String → List (String × FSTree) →
    Except MergeExc (List (String × FSTree))
  | 0, _, _, _ => .error .outOfFuel
  | _ + 1, _, [], es => .ok es
  | fuel + 1, basePath, d :: ds, es =>
    match lookupEntry es d with
    | some (.dir sub) =>
      match mergeDirsIgnoreCase fuel (pathJoin basePath d) sub with
      | .error e => .error e
      | .ok sub' => recurseSurvivors fuel basePath ds (updateEntry es d (.dir sub'))
    | _ => .error .osError

end

/-- The directory names deleted by the merging loop over the given groups:
for every group with at least two members, every member except the merge
target. -/
def removedNames (gs : List (String × List String)) : List String :=
  gs.flatMap (fun p =>
    if p.2.length ≤ 1 then [] else p.2.filter (fun n => ¬n = groupTarget p.1 p.2))

/-- Fuel consumed by `recurseSurvivors` on the given survivor names over a
fixed listing: one unit per name plus the bound of its subtree. -/
def survivorsFuel (es : List (String × FSTree)) : List String → Nat
  | [] => 0
  | d :: ds =>
    1 + (match lookupEntry es d with | some t => t.fuelBound | none => 0) +
      survivorsFuel es ds

/-! ## `_get_minimal_common_directory` -/

/-- The immediate subdirectories with their listings, in order. -/
def dirEntriesOf : List (String × FSTree) → List (String × List (String × FSTree))
  | [] => []
  | (n, .dir sub) :: rest => (n, sub) :: dirEntriesOf rest
  | (_, .file _) :: rest => dirEntriesOf rest

mutual

/-- Model of `os.walk(base)` (top-down): the triple of the current directory
first, then the walks of its subdirectories in listing order. -/
def walkFrom (path : String) (es : List (String × FSTree)) :
    List (String × List String × List String) :=
  (path, dirNames es, fileNames es) :: walkChildren path es

def walkChildren (path : String) : List (String × FSTree) →
    List (String × List String × List String)
  | [] => []
  | (n, .dir sub) :: rest => walkFrom (pathJoin path n) sub ++ walkChildren path rest
  | (_, .file _) :: rest => walkChildren path rest

end

/-- The loop body of `_get_minimal_common_directory`: remember the current
directory, stop at the first one holding files or not exactly one
subdirectory, fall back to the last directory visited when the walk is
exhausted. -/
def walkLoop (lastDir : String) : List (String × List String × List String) → String
  | [] => lastDir
  | (dirpath, dirnames, filenames) :: rest =>
    if filenames ≠ [] then dirpath
    else if dirnames.length ≠ 1 then dirpath
    else walkLoop dirpath rest

/-- Model of `_get_minimal_common_directory(base_dir)`. -/
def minimalCommonDirectory (basePath : String) (es : List (String × FSTree)) :
    String :=
  walkLoop basePath (walkFrom basePath es)

/-- The directory's single subdirectory, when it has exactly one. -/
def onlyDir (es : List (String × FSTree)) :
    Option (String × List (String × FSTree)) :=
  match dirEntriesOf es with
  | [x] => some x
  | _ => none

/-- Modelled from the spec: the Common-Root Collapser walks the tree top-down;
a directory that contains any plain files, or anything other than exactly one
subdirectory, is the answer; otherwise it descends into the single
subdirectory and repeats.  Stated from the spec's words for comparison with
the `os.walk`-based `minimalCommonDirectory` taken from the source. -/
def chaseCommonRoot (basePath : String) (es : List (String × FSTree)) : String :=
  if (fileNames es).isEmpty then
    match h : onlyDir es with
    | some (n, sub) => chaseCommonRoot (pathJoin basePath n) sub
    | none => basePath
  else basePath
termination_by sizeOf es
decreasing_by
  have hmem : (n, sub) ∈ dirEntriesOf es := by
    unfold onlyDir at h
    rcases hd : dirEntriesOf es with _ | ⟨x, _ | ⟨y, l⟩⟩ <;> simp [hd] at h <;>
      simp [hd, h]
  have key : ∀ (l : List (String × FSTree)), (n, sub) ∈ dirEntriesOf l →
      sizeOf sub < sizeOf l := by
    intro l hl
    induction l with
    | nil => simp [dirEntriesOf] at hl
    | cons p rest ih =>
      obtain ⟨m, t⟩ := p
      cases t with
      | file c =>
        simp only [dirEntriesOf] at hl
        have := ih hl
        simp only [List.cons.sizeOf_spec]
        omega
      | dir s =>
        simp only [dirEntriesOf, List.mem_cons] at hl
        rcases hl with hl | hl
        · have h2 : sub = s := congrArg Prod.snd hl
          subst h2
          simp only [List.cons.sizeOf_spec, Prod.mk.sizeOf_spec, FSTree.dir.sizeOf_spec]
          omega
        · have := ih hl
          simp only [List.cons.sizeOf_spec]
          omega
  exact key es hmem

/-! ## The Format Dispatcher (`Extractor.create_extractors_mapping` /
`Extractor.extract_archive`) -/

/-- The five extraction strategies. -/
inductive Strategy where
  | rar | zip | sevenZ | tar | ar
deriving Repr, DecidableEq

/-- The error of `extract_archive`. -/
inductive ExtractExc where
  | unknownArchive (ext : String)
deriving Repr, DecidableEq

/-- Model of `Extractor.create_extractors_mapping`, keyed by the
`use_7z_for_zip` flag: the static extension-to-strategy table. -/
def createExtractorsMapping (use7zForZip : Bool) (ext : String) : Option Strategy :=
  if ext = ".cbr" ∨ ext = ".rar" ∨ ext = ".rar_" then some .rar
  else if ext = ".cbz" ∨ ext = ".egg" ∨ ext = ".jar" ∨ ext = ".par" ∨ ext = ".zip" ∨
      ext = ".apk" ∨ ext = ".xapk" ∨ ext = ".crx" then
    some (if use7zForZip then .sevenZ else .zip)
  else if ext = ".7z" ∨ ext = ".img" ∨ ext = ".iso" ∨ ext = ".dmg" then some .sevenZ
  else if ext = ".bz2" ∨ ext = ".gz2" ∨ ext = ".tgz" ∨ ext = ".tbz" ∨ ext = ".tar" ∨
      ext = ".gz" ∨ ext = ".xz" ∨ ext = ".zst" then some .tar
  else if ext = ".deb" then some .ar
  else none

/-- The extension `extract_archive` dispatches on, before lowercasing:
`os.path.splitext`'s extension, replaced by `FLAGS.override_extension` when
that flag is set to a non-empty (truthy) string. -/
def effectiveExtension (overrideExt : Option String) (filename : String) : String :=
  match overrideExt with
  | some o => if o = "" then splitextExt filename else o
  | none => splitextExt filename

/-- Model of `Extractor.extract_archive(filename)`: derive the extension,
lowercase it, look it up in the strategy table; raise `UnknownArchiveError`
when absent, otherwise invoke the selected strategy with the full path. -/
def extractArchive (use7zForZip : Bool) (overrideExt : Option String)
    (filename : String) : Except ExtractExc (Strategy × String) :=
  let ext := strToLower (effectiveExtension overrideExt filename)
  match createExtractorsMapping use7zForZip ext with
  | none => .error (.unknownArchive ext)
  | some s => .ok (s, filename)

/-! ## The Password Resolver (`Extractor._get_password`) -/

/-- Model of `Extractor._get_password(container_filename)` against an abstract
filesystem `readFile` mapping each existing path to its contents: test
`<container>.password` then `passwd.txt` next to the archive, returning the
stripped contents of the first file that exists, or nothing. -/
def getPassword (readFile : String → Option String) (containerFilename : String) :
    Option String :=
  let dirname := osPathDirname containerFilename
  let filenamesToTest :=
    [containerFilename ++ ".password", pathJoin dirname "passwd.txt"]
  go filenamesToTest
where
  go : List String → Option String
    | [] => none
    | f :: fs =>
      match readFile f with
      | some contents => some (pyStrip contents)
      | none => go fs

/-! ## The Orchestrator lifecycle (`_tmpdir_wrapper` / `removedirs`) -/

/-- The exceptions that can escape `main`: an unknown archive extension raised
during extraction, or a merge failure raised during reconciliation. -/
inductive AppExc where
  | unknownArchive (ext : String)
  | mergeFailure (localEntryPath remoteEntryPath : String)
deriving Repr, DecidableEq

/-- One bottom-up pass of the `os.walk(basedir, topdown=False)` loop of
`removedirs`: every subdirectory (already emptied by the deeper passes) is
removed with `os.rmdir` and every file with `os.unlink`, leaving nothing. -/
def removeEntries : List (String × FSTree) → List (String × FSTree)
  | [] => []
  | _ :: rest => removeEntries rest

/-- Model of `removedirs(basedir)`: the bottom-up walk removes every entry,
then `os.rmdir(basedir)` removes the base directory itself, so the directory
no longer exists (`none`). -/
def removedirs (es : List (String × FSTree)) : Option (List (String × FSTree)) :=
  match removeEntries es with
  | [] => none
  | rest => some rest

/-- Result of a whole run under `_tmpdir_wrapper`: the propagated outcome of
`main`, and the final state of the temporary workspace directory (`none` when
it has been deleted). -/
structure WrapperResult where
  result : Except AppExc Unit
  workspace : Option (List (String × FSTree))
deriving Repr

/-- Model of `_tmpdir_wrapper(argv)`: `tempfile.mkdtemp` creates a fresh empty
workspace directory, `main` runs inside `try:` producing an outcome and a
final workspace tree, and the `finally:` block always calls
`removedirs(tempdir)`, whether `main` returned or raised. -/
def tmpdirWrapper
    (runMain : List (String × FSTree) → Except AppExc Unit × List (String × FSTree)) :
    WrapperResult :=
  let tempdir : List (String × FSTree) := []
  let step := runMain tempdir
  { result := step.1, workspace := removedirs step.2 }

/-! ## General lemmas -/

theorem removeEntries_eq_nil (es : List (String × FSTree)) : removeEntries es = [] := by
  induction es with
  | nil => rfl
  | cons p rest ih => simpa [removeEntries] using ih

theorem removedirs_eq_none (es : List (String × FSTree)) : removedirs es = none := by
  simp [removedirs, removeEntries_eq_nil]

/-! ### Listing lemmas -/

theorem allDiff_iff_nodup (l : List String) : allDiff l = true ↔ l.Nodup := by
  induction l with
  | nil => simp [allDiff]
  | cons n ns ih =>
    simp only [allDiff, Bool.and_eq_true, List.all_eq_true, List.nodup_cons, ih,
      decide_eq_true_eq]
    constructor
    · rintro ⟨h1, h2⟩
      exact ⟨fun hmem => h1 n hmem rfl, h2⟩
    · rintro ⟨h1, h2⟩
      exact ⟨fun m hm heq => h1 (heq ▸ hm), h2⟩

theorem lookupEntry_nil (m : String) : lookupEntry [] m = none := rfl

theorem lookupEntry_cons (p : String × FSTree) (rest : List (String × FSTree))
    (m : String) :
    lookupEntry (p :: rest) m = if p.1 = m then some p.2 else lookupEntry rest m := by
  unfold lookupEntry
  by_cases h : p.1 = m
  · rw [List.find?_cons_of_pos _ (by simpa using h), if_pos h]
    rfl
  · rw [List.find?_cons_of_neg _ (by simpa using h), if_neg h]

theorem updateEntry_nil (n : String) (t : FSTree) : updateEntry [] n t = [] := rfl

theorem updateEntry_cons (p : String × FSTree) (rest : List (String × FSTree))
    (n : String) (t : FSTree) :
    updateEntry (p :: rest) n t =
      (if p.1 = n then (n, t) else p) :: updateEntry rest n t := rfl

theorem removeEntry_nil (r : String) : removeEntry [] r = [] := rfl

theorem removeEntry_cons (p : String × FSTree) (rest : List (String × FSTree))
    (r : String) :
    removeEntry (p :: rest) r =
      if p.1 = r then removeEntry rest r else p :: removeEntry rest r := by
  unfold removeEntry
  rw [List.filter_cons]
  by_cases h : p.1 = r
  · simp [h]
  · simp [h]

theorem mem_of_lookupEntry {es : List (String × FSTree)} {n : String} {t : FSTree}
    (h : lookupEntry es n = some t) : (n, t) ∈ es := by
  induction es with
  | nil => simp [lookupEntry_nil] at h
  | cons p rest ih =>
    obtain ⟨m, u⟩ := p
    rw [lookupEntry_cons] at h
    by_cases hp : m = n
    · rw [if_pos hp] at h
      have h2 : u = t := by injection h
      exact List.mem_cons.mpr (Or.inl (by rw [← hp, ← h2]))
    · rw [if_neg hp] at h
      exact List.mem_cons_of_mem _ (ih h)

theorem lookupEntry_of_mem {es : List (String × FSTree)} {n : String} {t : FSTree}
    (hnd : allDiff (es.map Prod.fst) = true) (h : (n, t) ∈ es) :
    lookupEntry es n = some t := by
  rw [allDiff_iff_nodup] at hnd
  induction es with
  | nil => simp at h
  | cons p rest ih =>
    simp only [List.map_cons, List.nodup_cons] at hnd
    rw [lookupEntry_cons]
    rcases List.mem_cons.mp h with h | h
    · cases h
      simp
    · have hne : ¬p.1 = n := by
        intro he
        exact hnd.1 (he ▸ List.mem_map_of_mem Prod.fst h)
      rw [if_neg hne]
      exact ih hnd.2 h

theorem mem_dirNames_iff {es : List (String × FSTree)} {n : String} :
    n ∈ dirNames es ↔ ∃ sub, (n, FSTree.dir sub) ∈ es := by
  unfold dirNames
  rw [List.mem_map]
  constructor
  · rintro ⟨⟨m, t⟩, hmem, rfl⟩
    rw [List.mem_filter] at hmem
    cases t with
    | file c => simp [isDirT] at hmem
    | dir sub => exact ⟨sub, hmem.1⟩
  · rintro ⟨sub, hmem⟩
    exact ⟨(n, .dir sub), List.mem_filter.mpr ⟨hmem, by simp [isDirT]⟩, rfl⟩

theorem map_fst_updateEntry (es : List (String × FSTree)) (n : String) (t : FSTree) :
    (updateEntry es n t).map Prod.fst = es.map Prod.fst := by
  induction es with
  | nil => rfl
  | cons p rest ih =>
    rw [updateEntry_cons, List.map_cons, List.map_cons, ih]
    by_cases h : p.1 = n
    · rw [if_pos h, h]
    · rw [if_neg h]

theorem map_fst_removeEntry (es : List (String × FSTree)) (r : String) :
    (removeEntry es r).map Prod.fst = (es.map Prod.fst).filter (fun m => ¬m = r) := by
  induction es with
  | nil => rfl
  | cons p rest ih =>
    rw [removeEntry_cons, List.map_cons, List.filter_cons]
    by_cases h : p.1 = r
    · rw [if_pos h, ih, if_neg (by simpa using h)]
    · rw [if_neg h, List.map_cons, ih, if_pos (by simpa using h)]

theorem lookupEntry_updateEntry_ne (es : List (String × FSTree)) {n m : String}
    (t : FSTree) (h : ¬m = n) :
    lookupEntry (updateEntry es n t) m = lookupEntry es m := by
  induction es with
  | nil => rfl
  | cons p rest ih =>
    rw [updateEntry_cons, lookupEntry_cons, lookupEntry_cons]
    by_cases hp : p.1 = n
    · rw [if_pos hp, if_neg (show ¬(n, t).1 = m from fun he => h he.symm),
        if_neg (show ¬p.1 = m from by rw [hp]; exact fun he => h he.symm)]
      exact ih
    · rw [if_neg hp]
      by_cases hm : p.1 = m
      · rw [if_pos hm, if_pos hm]
      · rw [if_neg hm, if_neg hm]
        exact ih

theorem lookupEntry_removeEntry_ne (es : List (String × FSTree)) {r m : String}
    (h : ¬m = r) : lookupEntry (removeEntry es r) m = lookupEntry es m := by
  induction es with
  | nil => rfl
  | cons p rest ih =>
    rw [removeEntry_cons, lookupEntry_cons]
    by_cases hp : p.1 = r
    · rw [if_pos hp, if_neg (show ¬p.1 = m from by rw [hp]; exact fun he => h he.symm)]
      exact ih
    · rw [if_neg hp, lookupEntry_cons]
      by_cases hm : p.1 = m
      · rw [if_pos hm, if_pos hm]
      · rw [if_neg hm, if_neg hm]
        exact ih

theorem updateEntry_absent (es : List (String × FSTree)) {n : String} (t : FSTree)
    (h : n ∉ es.map Prod.fst) : updateEntry es n t = es := by
  induction es with
  | nil => rfl
  | cons p rest ih =>
    simp only [List.map_cons, List.mem_cons, not_or] at h
    rw [updateEntry_cons, if_neg (fun he => h.1 he.symm), ih h.2]

theorem updateEntry_self {es : List (String × FSTree)} {n : String} {t : FSTree}
    (hnd : allDiff (es.map Prod.fst) = true) (h : lookupEntry es n = some t) :
    updateEntry es n t = es := by
  rw [allDiff_iff_nodup] at hnd
  induction es with
  | nil => rfl
  | cons p rest ih =>
    obtain ⟨m, u⟩ := p
    simp only [List.map_cons, List.nodup_cons] at hnd
    rw [lookupEntry_cons] at h
    rw [updateEntry_cons]
    by_cases hm : m = n
    · rw [if_pos hm] at h ⊢
      simp only [Option.some.injEq] at h
      rw [updateEntry_absent rest t (hm ▸ hnd.1), ← h, hm]
    · rw [if_neg hm] at h ⊢
      rw [ih hnd.2 h]

/-! ### Shape lemmas -/

theorem map_fst_shape (es : List (String × FSTree)) :
    (shape es).map Prod.fst = es.map Prod.fst := by
  unfold shape
  rw [List.map_map]
  rfl

theorem dirNames_of_shape (es : List (String × FSTree)) :
    dirNames es = ((shape es).filter (fun q => q.2 = none)).map Prod.fst := by
  induction es with
  | nil => rfl
  | cons p rest ih =>
    obtain ⟨n, t⟩ := p
    cases t with
    | file c => simpa [dirNames, shape, isDirT, List.filter_cons] using ih
    | dir sub => simpa [dirNames, shape, isDirT, List.filter_cons] using ih

theorem mem_file_shape {es : List (String × FSTree)} {n : String} {c : String} :
    (n, FSTree.file c) ∈ es ↔ (n, some c) ∈ shape es := by
  induction es with
  | nil => simp [shape]
  | cons p rest ih =>
    obtain ⟨m, t⟩ := p
    unfold shape at ih ⊢
    rw [List.map_cons, List.mem_cons, List.mem_cons, ih]
    constructor
    · rintro (h | h)
      · exact Or.inl (by rw [← h])
      · exact Or.inr h
    · rintro (h | h)
      · cases t with
        | file c2 =>
          simp only [Prod.mk.injEq] at h
          exact Or.inl (by rw [h.1, (Option.some.inj h.2)])
        | dir sub => simp at h
      · exact Or.inr h

theorem shape_removeEntry (es : List (String × FSTree)) (r : String) :
    shape (removeEntry es r) = (shape es).filter (fun q => ¬q.1 = r) := by
  induction es with
  | nil => rfl
  | cons p rest ih =>
    rw [removeEntry_cons]
    by_cases h : p.1 = r
    · rw [if_pos h, ih]
      unfold shape
      rw [List.map_cons, List.filter_cons]
      rw [if_neg (by simpa using h)]
    · rw [if_neg h]
      unfold shape
      rw [List.map_cons, List.map_cons, List.filter_cons]
      rw [if_pos (by simpa using h)]
      unfold shape at ih
      rw [ih]

theorem shape_updateEntry_all_dir {es : List (String × FSTree)} {n : String}
    (y : List (String × FSTree))
    (h : ∀ p ∈ es, p.1 = n → isDirT p.2 = true) :
    shape (updateEntry es n (FSTree.dir y)) = shape es := by
  induction es with
  | nil => rfl
  | cons p rest ih =>
    rw [updateEntry_cons]
    unfold shape
    rw [List.map_cons, List.map_cons]
    have ihr := ih (fun q hq => h q (List.mem_cons_of_mem _ hq))
    unfold shape at ihr
    rw [ihr]
    by_cases hp : p.1 = n
    · rw [if_pos hp]
      have := h p (List.mem_cons_self _ _) hp
      cases hdt : p.2 with
      | file c => rw [hdt] at this; simp [isDirT] at this
      | dir sub => simp [hp]
    · rw [if_neg hp]

/-! ### Well-formedness lemmas -/

theorem wfTrees_iff (es : List (String × FSTree)) :
    wfTrees es = true ↔ ∀ p ∈ es, FSTree.wf p.2 = true := by
  induction es with
  | nil => simp [wfTrees]
  | cons p rest ih =>
    obtain ⟨n, t⟩ := p
    rw [show wfTrees ((n, t) :: rest) = (FSTree.wf t && wfTrees rest) from by
      simp [wfTrees]]
    simp [ih]

theorem reconTrees_iff (es : List (String × FSTree)) :
    reconTrees es = true ↔ ∀ p ∈ es, FSTree.reconciled p.2 = true := by
  induction es with
  | nil => simp [reconTrees]
  | cons p rest ih =>
    obtain ⟨n, t⟩ := p
    rw [show reconTrees ((n, t) :: rest) = (FSTree.reconciled t && reconTrees rest) from by
      simp [reconTrees]]
    simp [ih]

theorem wf_dir (es : List (String × FSTree)) :
    FSTree.wf (FSTree.dir es) = wfListing es := by
  simp [FSTree.wf, wfListing]

theorem reconciled_dir (es : List (String × FSTree)) :
    FSTree.reconciled (FSTree.dir es) = reconciledListing es := by
  simp [FSTree.reconciled, reconciledListing]

theorem wfListing_allDiff {es : List (String × FSTree)} (h : wfListing es = true) :
    allDiff (es.map Prod.fst) = true := by
  unfold wfListing at h
  exact (Bool.and_eq_true_iff.mp h).1

theorem wfListing_wfTrees {es : List (String × FSTree)} (h : wfListing es = true) :
    wfTrees es = true := by
  unfold wfListing at h
  exact (Bool.and_eq_true_iff.mp h).2

theorem wf_of_lookup {es : List (String × FSTree)} {n : String} {t : FSTree}
    (h : wfListing es = true) (hl : lookupEntry es n = some t) :
    FSTree.wf t = true :=
  (wfTrees_iff es).mp (wfListing_wfTrees h) (n, t) (mem_of_lookupEntry hl)

theorem wfListing_removeEntry {es : List (String × FSTree)} (r : String)
    (h : wfListing es = true) : wfListing (removeEntry es r) = true := by
  unfold wfListing
  rw [Bool.and_eq_true_iff]
  constructor
  · rw [allDiff_iff_nodup, map_fst_removeEntry]
    exact ((allDiff_iff_nodup _).mp (wfListing_allDiff h)).filter _
  · rw [wfTrees_iff]
    intro p hp
    exact (wfTrees_iff es).mp (wfListing_wfTrees h) p (List.mem_of_mem_filter hp)

theorem wfListing_updateEntry {es : List (String × FSTree)} {n : String} {t : FSTree}
    (h : wfListing es = true) (ht : FSTree.wf t = true) :
    wfListing (updateEntry es n t) = true := by
  unfold wfListing
  rw [Bool.and_eq_true_iff]
  constructor
  · rw [map_fst_updateEntry]
    exact wfListing_allDiff h
  · rw [wfTrees_iff]
    intro p hp
    unfold updateEntry at hp
    obtain ⟨q, hq, he⟩ := List.mem_map.mp hp
    by_cases hqn : q.1 = n
    · rw [if_pos hqn] at he
      rw [← he]
      exact ht
    · rw [if_neg hqn] at he
      rw [← he]
      exact (wfTrees_iff es).mp (wfListing_wfTrees h) q hq

theorem all_name_dir_of_lookup {es : List (String × FSTree)} {n : String}
    {x : List (String × FSTree)} (hnd : allDiff (es.map Prod.fst) = true)
    (hl : lookupEntry es n = some (FSTree.dir x)) :
    ∀ p ∈ es, p.1 = n → isDirT p.2 = true := by
  intro p hp hpn
  have hmem : (n, p.2) ∈ es := by
    have : p = (n, p.2) := by
      rw [← hpn]
    rw [← this]
    exact hp
  have := lookupEntry_of_mem hnd hmem
  rw [hl] at this
  have h2 : FSTree.dir x = p.2 := by injection this
  rw [← h2]
  rfl

theorem dirNames_eq_dirEntriesOf (es : List (String × FSTree)) :
    dirNames es = (dirEntriesOf es).map Prod.fst := by
  induction es with
  | nil => rfl
  | cons p rest ih =>
    obtain ⟨n, t⟩ := p
    cases t <;> simp [dirNames, dirEntriesOf, isDirT] at ih ⊢ <;> exact ih

theorem walkChildren_eq_flatMap (p : String) (es : List (String × FSTree)) :
    walkChildren p es =
      (dirEntriesOf es).flatMap (fun q => walkFrom (pathJoin p q.1) q.2) := by
  induction es with
  | nil => simp [walkChildren, dirEntriesOf]
  | cons hd rest ih =>
    obtain ⟨n, t⟩ := hd
    cases t with
    | file c => simpa [walkChildren, dirEntriesOf] using ih
    | dir sub => simp [walkChildren, dirEntriesOf, ih]

theorem onlyDir_eq_some {es : List (String × FSTree)} {n : String}
    {sub : List (String × FSTree)} (h : onlyDir es = some (n, sub)) :
    dirEntriesOf es = [(n, sub)] := by
  unfold onlyDir at h
  rcases hd : dirEntriesOf es with _ | ⟨x, _ | ⟨y, l⟩⟩ <;> simp [hd] at h <;>
    simp [hd, h]

theorem walkLoop_walkFrom_eq_chase (p : String) (es : List (String × FSTree)) :
    ∀ lastDir, walkLoop lastDir (walkFrom p es) = chaseCommonRoot p es := by
  induction p, es using chaseCommonRoot.induct with
  | case1 p es hfiles n sub honly ih =>
    intro lastDir
    have hde := onlyDir_eq_some honly
    have hdn : dirNames es = [n] := by simp [dirNames_eq_dirEntriesOf, hde]
    rw [walkFrom]
    rw [walkLoop]
    simp only [List.isEmpty_iff] at hfiles
    rw [if_neg (by simp [hfiles]), if_neg (by simp [hdn])]
    rw [walkChildren_eq_flatMap, hde]
    simp only [List.flatMap_cons, List.flatMap_nil, List.append_nil]
    rw [ih p]
    conv_rhs => rw [chaseCommonRoot]
    simp only [List.isEmpty_iff.mpr hfiles, if_true]
    split
    · rename_i n2 sub2 heq
      rw [honly] at heq
      cases heq
      rfl
    · rename_i heq
      rw [honly] at heq
      cases heq
  | case2 p es hfiles honly =>
    intro lastDir
    have hdn : (dirNames es).length ≠ 1 := by
      rw [dirNames_eq_dirEntriesOf]
      unfold onlyDir at honly
      rcases hd : dirEntriesOf es with _ | ⟨x, _ | ⟨y, l⟩⟩ <;> simp [hd] at honly ⊢
    rw [walkFrom, walkLoop]
    simp only [List.isEmpty_iff] at hfiles
    rw [if_neg (by simp [hfiles]), if_pos hdn]
    conv_rhs => rw [chaseCommonRoot]
    simp only [List.isEmpty_iff.mpr hfiles, if_true]
    split
    · rename_i n2 sub2 heq
      rw [honly] at heq
      cases heq
    · rfl
  | case3 p es hfiles =>
    intro lastDir
    rw [walkFrom, walkLoop]
    simp only [List.isEmpty_iff] at hfiles
    rw [if_pos hfiles]
    conv_rhs => rw [chaseCommonRoot]
    simp [hfiles]

/-! ### Merge lemmas -/

theorem mergeFiles_shape_wf (fuel : Nat) (rp lp : String)
    (remote locl : List (String × FSTree)) (hwf : wfListing locl = true) :
    shape (mergeFiles fuel rp lp remote locl).locl = shape locl ∧
    wfListing (mergeFiles fuel rp lp remote locl).locl = true := by
  induction fuel generalizing rp lp remote locl with
  | zero => exact ⟨rfl, hwf⟩
  | succ fuel ih =>
    rw [mergeFiles.eq_def]
    simp only
    by_cases hrl : rp = lp
    · rw [if_pos hrl]
      exact ⟨rfl, hwf⟩
    · rw [if_neg hrl]
      cases remote with
      | nil => exact ⟨rfl, hwf⟩
      | cons hd rest =>
        obtain ⟨name, t⟩ := hd
        dsimp only
        cases hl : lookupEntry locl name with
        | none => exact ⟨rfl, hwf⟩
        | some u =>
          dsimp only
          cases t with
          | file c =>
            cases u with
            | file c2 => exact ih rp lp rest locl hwf
            | dir lents => exact ⟨rfl, hwf⟩
          | dir rents =>
            cases u with
            | file c2 => exact ⟨rfl, hwf⟩
            | dir lents =>
              dsimp only
              have hlw : wfListing lents = true := by
                have := wf_of_lookup hwf hl
                rwa [wf_dir] at this
              have ihin := ih (pathJoin rp name) (pathJoin lp name) rents lents hlw
              have hshape' :
                  shape (updateEntry locl name
                    (FSTree.dir (mergeFiles fuel (pathJoin rp name)
                      (pathJoin lp name) rents lents).locl)) = shape locl :=
                shape_updateEntry_all_dir _
                  (all_name_dir_of_lookup (wfListing_allDiff hwf) hl)
              have hwf' :
                  wfListing (updateEntry locl name
                    (FSTree.dir (mergeFiles fuel (pathJoin rp name)
                      (pathJoin lp name) rents lents).locl)) = true :=
                wfListing_updateEntry hwf (by rw [wf_dir]; exact ihin.2)
              cases hexc :
                  (mergeFiles fuel (pathJoin rp name) (pathJoin lp name) rents
                    lents).exc with
              | none =>
                simp only
                have := ih rp lp rest _ hwf'
                exact ⟨this.1.trans hshape', this.2⟩
              | some e =>
                simp only
                exact ⟨hshape', hwf'⟩

theorem mergeRemotes_ok_shape (fuel : Nat) (bp localD : String)
    (rs : List String) (es es' : List (String × FSTree))
    (hwf : wfListing es = true)
    (h : mergeRemotes fuel bp localD rs es = .ok es') :
    shape es' = (shape es).filter (fun q => ¬q.1 ∈ rs) ∧ wfListing es' = true := by
  induction rs generalizing es with
  | nil =>
    simp only [mergeRemotes] at h
    cases h
    exact ⟨by simp, hwf⟩
  | cons r rs ih =>
    simp only [mergeRemotes] at h
    cases hr : lookupEntry es r with
    | none => rw [hr] at h; cases h
    | some tr =>
      rw [hr] at h
      cases tr with
      | file c => cases h
      | dir rents =>
        cases hl : lookupEntry es localD with
        | none => rw [hl] at h; cases h
        | some tl =>
          rw [hl] at h
          cases tl with
          | file c => cases h
          | dir lents =>
            dsimp only at h
            cases hexc :
                (mergeFiles fuel (pathJoin bp r) (pathJoin bp localD) rents
                  lents).exc with
            | some e => rw [hexc] at h; cases h
            | none =>
              rw [hexc] at h
              have hlw : wfListing lents = true := by
                have := wf_of_lookup hwf hl
                rwa [wf_dir] at this
              have hmfs := mergeFiles_shape_wf fuel (pathJoin bp r)
                (pathJoin bp localD) rents lents hlw
              have hwfrm := wfListing_removeEntry r hwf
              have hwf2 : wfListing (updateEntry (removeEntry es r) localD
                  (FSTree.dir (mergeFiles fuel (pathJoin bp r) (pathJoin bp localD)
                    rents lents).locl)) = true :=
                wfListing_updateEntry hwfrm (by rw [wf_dir]; exact hmfs.2)
              have hmemsub : ∀ p ∈ removeEntry es r, p.1 = localD →
                  isDirT p.2 = true := by
                intro p hp hpl
                exact all_name_dir_of_lookup (wfListing_allDiff hwf) hl p
                  (List.mem_of_mem_filter (show p ∈ List.filter _ es from hp)) hpl
              have hshape2 : shape (updateEntry (removeEntry es r) localD
                  (FSTree.dir (mergeFiles fuel (pathJoin bp r) (pathJoin bp localD)
                    rents lents).locl)) = (shape es).filter (fun q => ¬q.1 = r) := by
                rw [shape_updateEntry_all_dir _ hmemsub]
                exact shape_removeEntry es r
              rcases ih _ hwf2 h with ⟨hs, hw⟩
              refine ⟨?_, hw⟩
              rw [hs, hshape2, List.filter_filter]
              apply List.filter_congr
              intro a _
              simp [List.mem_cons, not_or, Bool.decide_and, Bool.and_comm]

theorem processGroups_ok_shape (fuel : Nat) (bp : String)
    (gs : List (String × List String)) (es es1 : List (String × FSTree))
    (hwf : wfListing es = true)
    (h : processGroups fuel bp gs es = .ok es1) :
    shape es1 = (shape es).filter (fun q => ¬q.1 ∈ removedNames gs) ∧
    wfListing es1 = true := by
  induction gs generalizing es with
  | nil =>
    simp only [processGroups] at h
    cases h
    exact ⟨by simp [removedNames], hwf⟩
  | cons p gs ih =>
    obtain ⟨k, g⟩ := p
    simp only [processGroups] at h
    by_cases hlen : g.length ≤ 1
    · rw [if_pos hlen] at h
      rcases ih _ hwf h with ⟨hs, hw⟩
      refine ⟨?_, hw⟩
      rw [hs, show removedNames ((k, g) :: gs) = removedNames gs from by
        simp [removedNames, hlen]]
    · rw [if_neg hlen] at h
      cases hmr : mergeRemotes fuel bp (groupTarget k g)
          (g.filter (fun n => ¬n = groupTarget k g)) es with
      | error e => rw [hmr] at h; cases h
      | ok es2 =>
        rw [hmr] at h
        rcases mergeRemotes_ok_shape _ _ _ _ _ _ hwf hmr with ⟨hs2, hw2⟩
        rcases ih _ hw2 h with ⟨hs, hw⟩
        refine ⟨?_, hw⟩
        rw [hs, hs2, List.filter_filter]
        apply List.filter_congr
        intro a _
        have hrn : removedNames ((k, g) :: gs) =
            g.filter (fun n => ¬n = groupTarget k g) ++ removedNames gs := by
          simp [removedNames, hlen]
        rw [hrn]
        simp only [List.mem_append, not_or, Bool.decide_and, Bool.and_comm]

/-! ### Group lemmas -/

theorem mem_dedupFirst {l : List String} {a : String} :
    a ∈ dedupFirst l ↔ a ∈ l := by
  induction l with
  | nil => simp [dedupFirst]
  | cons k ks ih =>
    simp only [dedupFirst, List.mem_cons, List.mem_filter, ih, decide_eq_true_eq]
    constructor
    · rintro (h | ⟨h, _⟩)
      · exact Or.inl h
      · exact Or.inr h
    · rintro (h | h)
      · exact Or.inl h
      · by_cases hak : a = k
        · exact Or.inl hak
        · exact Or.inr ⟨h, hak⟩

theorem eq_of_mem_of_length_le_one {α : Type} {l : List α} (hl : l.length ≤ 1)
    {a b : α} (ha : a ∈ l) (hb : b ∈ l) : a = b := by
  match l with
  | [] => simp at ha
  | [x] =>
    rw [List.mem_singleton] at ha hb
    rw [ha, hb]
  | x :: y :: rest => simp at hl

theorem mem_removedNames {gs : List (String × List String)} {n : String} :
    n ∈ removedNames gs ↔
      ∃ p ∈ gs, ¬p.2.length ≤ 1 ∧ n ∈ p.2 ∧ ¬n = groupTarget p.1 p.2 := by
  unfold removedNames
  rw [List.mem_flatMap]
  constructor
  · rintro ⟨p, hp, hmem⟩
    by_cases hlen : p.2.length ≤ 1
    · rw [if_pos hlen] at hmem
      simp at hmem
    · rw [if_neg hlen] at hmem
      rw [List.mem_filter, decide_eq_true_eq] at hmem
      exact ⟨p, hp, hlen, hmem.1, hmem.2⟩
  · rintro ⟨p, hp, hlen, hmem, hne⟩
    refine ⟨p, hp, ?_⟩
    rw [if_neg hlen, List.mem_filter, decide_eq_true_eq]
    exact ⟨hmem, hne⟩

theorem mem_buildGroups {names : List String} {p : String × List String} :
    p ∈ buildGroups names ↔
      p.1 ∈ names.map strToLower ∧
      p.2 = names.filter (fun n => strToLower n = p.1) := by
  unfold buildGroups
  rw [List.mem_map]
  constructor
  · rintro ⟨k, hk, rfl⟩
    exact ⟨mem_dedupFirst.mp hk, rfl⟩
  · rintro ⟨h1, h2⟩
    exact ⟨p.1, mem_dedupFirst.mpr h1, by rw [← h2]⟩

theorem kept_iff {names : List String} {n : String} (hn : n ∈ names) :
    (¬n ∈ removedNames (buildGroups names)) ↔
      ((names.filter (fun m => strToLower m = strToLower n)).length ≤ 1 ∨
        n = groupTarget (strToLower n)
          (names.filter (fun m => strToLower m = strToLower n))) := by
  constructor
  · intro hkept
    by_contra hcon
    rw [not_or] at hcon
    apply hkept
    rw [mem_removedNames]
    refine ⟨(strToLower n, names.filter (fun m => strToLower m = strToLower n)),
      mem_buildGroups.mpr ⟨List.mem_map_of_mem strToLower hn, rfl⟩,
      hcon.1, ?_, hcon.2⟩
    rw [List.mem_filter, decide_eq_true_eq]
    exact ⟨hn, rfl⟩
  · intro hst
    intro hrem
    rw [mem_removedNames] at hrem
    obtain ⟨p, hp, hlen, hmem, hne⟩ := hrem
    rw [mem_buildGroups] at hp
    have hkn : p.1 = strToLower n := by
      have := hp.2 ▸ hmem
      rw [List.mem_filter, decide_eq_true_eq] at this
      exact this.2.symm
    rw [hp.2, hkn] at hlen hne
    rcases hst with hst | hst
    · exact hlen hst
    · exact hne hst

theorem nodup_lower_survivors (names : List String) (hnd : names.Nodup) :
    ((names.filter (fun n => ¬n ∈ removedNames (buildGroups names))).map
      strToLower).Nodup := by
  apply List.Nodup.map_on _ (hnd.filter _)
  intro a ha b hb heq
  rw [List.mem_filter, decide_eq_true_eq] at ha hb
  have hga : a ∈ names.filter (fun m => strToLower m = strToLower a) := by
    rw [List.mem_filter, decide_eq_true_eq]
    exact ⟨ha.1, rfl⟩
  have hgb : b ∈ names.filter (fun m => strToLower m = strToLower a) := by
    rw [List.mem_filter, decide_eq_true_eq]
    exact ⟨hb.1, heq.symm⟩
  have hkb := (kept_iff hb.1).mp hb.2
  rw [show strToLower b = strToLower a from heq.symm] at hkb
  rcases (kept_iff ha.1).mp ha.2 with hsa | hsa
  · exact eq_of_mem_of_length_le_one hsa hga hgb
  · rcases hkb with hsb | hsb
    · exact eq_of_mem_of_length_le_one hsb hga hgb
    · rw [hsa, hsb]

theorem mem_survivors_of_kept {names : List String} {n : String} (hn : n ∈ names)
    (hk : ¬n ∈ removedNames (buildGroups names)) :
    n ∈ (buildGroups names).flatMap (fun p => groupSurvivors p.1 p.2) := by
  rw [List.mem_flatMap]
  refine ⟨(strToLower n, names.filter (fun m => strToLower m = strToLower n)),
    mem_buildGroups.mpr ⟨List.mem_map_of_mem strToLower hn, rfl⟩, ?_⟩
  have hng : n ∈ names.filter (fun m => strToLower m = strToLower n) := by
    rw [List.mem_filter, decide_eq_true_eq]
    exact ⟨hn, rfl⟩
  unfold groupSurvivors
  rcases (kept_iff hn).mp hk with hs | hs
  · rw [if_pos hs]
    exact hng
  · by_cases hlen : (names.filter (fun m => strToLower m = strToLower n)).length ≤ 1
    · rw [if_pos hlen]
      exact hng
    · rw [if_neg hlen]
      rw [List.mem_singleton]
      exact hs

/-! ### Further listing lemmas -/

theorem lookupEntry_updateEntry_found {es : List (String × FSTree)} {n : String}
    {u : FSTree} (t : FSTree) (h : lookupEntry es n = some u) :
    lookupEntry (updateEntry es n t) n = some t := by
  induction es with
  | nil => simp [lookupEntry_nil] at h
  | cons p rest ih =>
    rw [lookupEntry_cons] at h
    rw [updateEntry_cons]
    by_cases hp : p.1 = n
    · rw [if_pos hp, lookupEntry_cons, if_pos rfl]
    · rw [if_neg hp] at h
      rw [if_neg hp, lookupEntry_cons, if_neg hp]
      exact ih h

theorem map_fst_filter_fst (l : List (String × Option String)) (P : String → Bool) :
    (l.filter (fun q => P q.1)).map Prod.fst = (l.map Prod.fst).filter P := by
  induction l with
  | nil => rfl
  | cons p rest ih =>
    rw [List.filter_cons, List.map_cons, List.filter_cons]
    by_cases h : P p.1
    · rw [if_pos h, if_pos h, List.map_cons, ih]
    · rw [if_neg (by simpa using h), if_neg (by simpa using h), ih]

theorem dirNames_filter_of_shape {es1 es : List (String × FSTree)}
    {P : String → Bool} (h : shape es1 = (shape es).filter (fun q => P q.1)) :
    dirNames es1 = (dirNames es).filter P := by
  rw [dirNames_of_shape, dirNames_of_shape, h, List.filter_comm, map_fst_filter_fst]

theorem dirNames_eq_of_shape_eq {es1 es : List (String × FSTree)}
    (h : shape es1 = shape es) : dirNames es1 = dirNames es := by
  rw [dirNames_of_shape, dirNames_of_shape, h]

theorem dirNames_nodup {es : List (String × FSTree)}
    (h : allDiff (es.map Prod.fst) = true) : (dirNames es).Nodup := by
  rw [allDiff_iff_nodup] at h
  unfold dirNames
  exact (List.Sublist.map Prod.fst (List.filter_sublist es)).nodup h

/-- Joint invariant of `_merge_directories_ignore_case` and its recursion
loop, by strong induction on the fuel: on a well-formed listing a successful
run reconciles the tree (and preserves well-formedness), and the recursion
loop reconciles exactly the subtrees it recurses into while changing nothing
else at its own level. -/
theorem mergeDirs_reconciles (fuel : Nat) :
    (∀ bp es es', wfListing es = true →
      mergeDirsIgnoreCase fuel bp es = .ok es' →
      reconciledListing es' = true ∧ wfListing es' = true ∧
      shape es' = (shape es).filter
        (fun q => ¬q.1 ∈ removedNames (buildGroups (dirNames es)))) ∧
    (∀ bp ds es es', wfListing es = true →
      recurseSurvivors fuel bp ds es = .ok es' →
      shape es' = shape es ∧ wfListing es' = true ∧
      ∀ n t, lookupEntry es' n = some t →
        (n ∈ ds → FSTree.reconciled t = true) ∧
        (¬n ∈ ds → lookupEntry es n = some t)) := by
  induction fuel using Nat.strong_induction_on with
  | _ fuel ihall =>
    constructor
    · intro bp es es' hwf h
      cases fuel with
      | zero => simp [mergeDirsIgnoreCase] at h
      | succ fuel =>
        simp only [mergeDirsIgnoreCase] at h
        cases hpg : processGroups (fuel + 1) bp (buildGroups (dirNames es)) es with
        | error e => rw [hpg] at h; cases h
        | ok es1 =>
          rw [hpg] at h
          dsimp only at h
          have PG := processGroups_ok_shape _ _ _ _ _ hwf hpg
          have RS := (ihall fuel (Nat.lt_succ_self fuel)).2 bp
            ((buildGroups (dirNames es)).flatMap (fun p => groupSurvivors p.1 p.2))
            es1 es' PG.2 h
          refine ⟨?_, RS.2.1, RS.1.trans PG.1⟩
          unfold reconciledListing
          rw [Bool.and_eq_true_iff]
          have hdn' : dirNames es' = (dirNames es).filter
              (fun n => ¬n ∈ removedNames (buildGroups (dirNames es))) := by
            rw [dirNames_eq_of_shape_eq RS.1]
            exact dirNames_filter_of_shape PG.1
          constructor
          · rw [allDiff_iff_nodup, hdn']
            exact nodup_lower_survivors _ (dirNames_nodup (wfListing_allDiff hwf))
          · rw [reconTrees_iff]
            intro p hp
            cases hpt : p.2 with
            | file c => simp [FSTree.reconciled]
            | dir sub2 =>
              have hmemdn : p.1 ∈ dirNames es' := by
                rw [mem_dirNames_iff]
                refine ⟨sub2, ?_⟩
                rw [← hpt, Prod.mk.eta]
                exact hp
              have hsurv : p.1 ∈ (buildGroups (dirNames es)).flatMap
                  (fun q => groupSurvivors q.1 q.2) := by
                rw [hdn', List.mem_filter, decide_eq_true_eq] at hmemdn
                exact mem_survivors_of_kept hmemdn.1 hmemdn.2
              have hlk : lookupEntry es' p.1 = some p.2 :=
                lookupEntry_of_mem (wfListing_allDiff RS.2.1)
                  (by rw [Prod.mk.eta]; exact hp)
              have hrec := (RS.2.2 p.1 p.2 hlk).1 hsurv
              rwa [hpt] at hrec
    · intro bp ds es es' hwf h
      cases fuel with
      | zero => simp [recurseSurvivors] at h
      | succ fuel =>
        cases ds with
        | nil =>
          simp only [recurseSurvivors] at h
          cases h
          refine ⟨rfl, hwf, ?_⟩
          intro n t hlk
          exact ⟨fun hmem => absurd hmem (List.not_mem_nil n), fun _ => hlk⟩
        | cons d ds =>
          simp only [recurseSurvivors] at h
          cases hld : lookupEntry es d with
          | none => rw [hld] at h; cases h
          | some td =>
            rw [hld] at h
            cases td with
            | file c => cases h
            | dir sub =>
              dsimp only at h
              cases hmd : mergeDirsIgnoreCase fuel (pathJoin bp d) sub with
              | error e => rw [hmd] at h; cases h
              | ok sub' =>
                rw [hmd] at h
                dsimp only at h
                have hsubwf : wfListing sub = true := by
                  have := wf_of_lookup hwf hld
                  rwa [wf_dir] at this
                have MD := (ihall fuel (Nat.lt_succ_self fuel)).1
                  (pathJoin bp d) sub sub' hsubwf hmd
                have hwf2 : wfListing (updateEntry es d (FSTree.dir sub')) = true :=
                  wfListing_updateEntry hwf (by rw [wf_dir]; exact MD.2.1)
                have hsh2 : shape (updateEntry es d (FSTree.dir sub')) = shape es :=
                  shape_updateEntry_all_dir _
                    (all_name_dir_of_lookup (wfListing_allDiff hwf) hld)
                have RS := (ihall fuel (Nat.lt_succ_self fuel)).2 bp ds _ es' hwf2 h
                refine ⟨RS.1.trans hsh2, RS.2.1, ?_⟩
                intro n t hlk
                constructor
                · intro hmem
                  by_cases hnds : n ∈ ds
                  · exact (RS.2.2 n t hlk).1 hnds
                  · have hnd : n = d := by
                      rcases List.mem_cons.mp hmem with h1 | h1
                      · exact h1
                      · exact absurd h1 hnds
                    have hlk2 := (RS.2.2 n t hlk).2 hnds
                    rw [hnd] at hlk2
                    rw [lookupEntry_updateEntry_found (FSTree.dir sub') hld] at hlk2
                    have ht : t = FSTree.dir sub' := by
                      injection hlk2.symm
                    rw [ht, reconciled_dir]
                    exact MD.1
                · intro hnmem
                  rw [List.mem_cons, not_or] at hnmem
                  have hlk2 := (RS.2.2 n t hlk).2 hnmem.2
                  rwa [lookupEntry_updateEntry_ne es (FSTree.dir sub') hnmem.1] at hlk2

theorem removedNames_subset {names : List String} {x : String}
    (h : x ∈ removedNames (buildGroups names)) : x ∈ names := by
  rw [mem_removedNames] at h
  obtain ⟨p, hp, _, hmem, _⟩ := h
  rw [mem_buildGroups] at hp
  rw [hp.2] at hmem
  exact List.mem_of_mem_filter hmem

/-! ### Idempotence lemmas -/

theorem wfListing_tail {p : String × FSTree} {rest : List (String × FSTree)}
    (h : wfListing (p :: rest) = true) : wfListing rest = true := by
  unfold wfListing at h ⊢
  rw [Bool.and_eq_true_iff] at h ⊢
  obtain ⟨h1, h2⟩ := h
  rw [List.map_cons] at h1
  simp only [allDiff, Bool.and_eq_true] at h1
  refine ⟨h1.2, ?_⟩
  rw [wfTrees_iff] at h2 ⊢
  exact fun q hq => h2 q (List.mem_cons_of_mem p hq)

theorem filter_lower_len_le_one {names : List String} {k : String}
    (h : (names.map strToLower).Nodup) :
    (names.filter (fun n => strToLower n = k)).length ≤ 1 := by
  induction names with
  | nil => simp
  | cons n rest ih =>
    rw [List.map_cons, List.nodup_cons] at h
    rw [List.filter_cons]
    by_cases hc : strToLower n = k
    · rw [if_pos (by simpa using hc)]
      have hrest : rest.filter (fun m => decide (strToLower m = k)) = [] := by
        rw [List.filter_eq_nil_iff]
        intro m hm
        rw [decide_eq_true_eq]
        intro hmk
        exact h.1 (by
          rw [show strToLower n = strToLower m from hc.trans hmk.symm]
          exact List.mem_map_of_mem strToLower hm)
      rw [hrest]
      simp
    · rw [if_neg (by simpa using hc)]
      exact ih h.2

theorem processGroups_id (fuel : Nat) (bp : String)
    (gs : List (String × List String)) (es : List (String × FSTree))
    (h : ∀ p ∈ gs, p.2.length ≤ 1) :
    processGroups fuel bp gs es = .ok es := by
  induction gs with
  | nil => rfl
  | cons p gs ih =>
    obtain ⟨k, g⟩ := p
    simp only [processGroups]
    rw [if_pos (h (k, g) (List.mem_cons_self _ _))]
    exact ih (fun q hq => h q (List.mem_cons_of_mem _ hq))

theorem dedupFirst_of_nodup {l : List String} (h : l.Nodup) : dedupFirst l = l := by
  induction l with
  | nil => rfl
  | cons k ks ih =>
    rw [List.nodup_cons] at h
    unfold dedupFirst
    rw [ih h.2, List.filter_eq_self.mpr]
    intro a ha
    rw [decide_eq_true_eq]
    intro hak
    exact h.1 (hak ▸ ha)

theorem eq_singleton_of_mem_len_le_one {α : Type} {l : List α} {a : α}
    (ha : a ∈ l) (hl : l.length ≤ 1) : l = [a] := by
  match l with
  | [] => simp at ha
  | [x] => rw [List.mem_singleton] at ha; rw [ha]
  | x :: y :: rest => simp at hl

theorem flatMap_eq_map_of_singl {α β : Type} {L : List α} {f : α → List β}
    {g : α → β} (h : ∀ k ∈ L, f k = [g k]) : L.flatMap f = L.map g := by
  induction L with
  | nil => rfl
  | cons k ks ih =>
    rw [List.flatMap_cons, List.map_cons, h k (List.mem_cons_self k ks),
      ih (fun a ha => h a (List.mem_cons_of_mem k ha)), List.singleton_append]

theorem survivors_eq_names_of_reconciled {names : List String}
    (hl : (names.map strToLower).Nodup) :
    (buildGroups names).flatMap (fun p => groupSurvivors p.1 p.2) = names := by
  unfold buildGroups
  rw [dedupFirst_of_nodup hl, List.flatMap_map]
  have hfil : ∀ n ∈ names,
      names.filter (fun m => strToLower m = strToLower n) = [n] := by
    intro n hn
    exact eq_singleton_of_mem_len_le_one
      (List.mem_filter.mpr ⟨hn, by simp⟩) (filter_lower_len_le_one hl)
  rw [flatMap_eq_map_of_singl
    (g := fun k => (names.filter (fun n => strToLower n = k)).headD "")]
  · rw [List.map_map]
    have : ∀ n ∈ names,
        ((names.filter (fun m => strToLower m = strToLower n)).headD "") = n := by
      intro n hn
      rw [hfil n hn]
      rfl
    calc names.map (fun n => (names.filter (fun m => strToLower m = strToLower n)).headD "")
        = names.map id := List.map_congr_left this
      _ = names := List.map_id names
  · intro k hk
    obtain ⟨n, hn, rfl⟩ := List.mem_map.mp hk
    dsimp only
    rw [hfil n hn]
    rfl

theorem survivorsFuel_cons_not_mem {p : String × FSTree}
    {rest : List (String × FSTree)} {ds : List String}
    (h : ∀ d ∈ ds, ¬p.1 = d) :
    survivorsFuel (p :: rest) ds = survivorsFuel rest ds := by
  induction ds with
  | nil => rfl
  | cons d ds ih =>
    simp only [survivorsFuel]
    rw [lookupEntry_cons, if_neg (h d (List.mem_cons_self d ds)),
      ih (fun x hx => h x (List.mem_cons_of_mem d hx))]

theorem survivorsFuel_le_fuelBoundEntries (es : List (String × FSTree))
    (hnd : allDiff (es.map Prod.fst) = true) :
    survivorsFuel es (dirNames es) ≤ fuelBoundEntries es := by
  induction es with
  | nil => simp [survivorsFuel, dirNames, fuelBoundEntries]
  | cons p rest ih =>
    obtain ⟨n, t⟩ := p
    have hnd' : allDiff (rest.map Prod.fst) = true := by
      rw [allDiff_iff_nodup] at hnd ⊢
      rw [List.map_cons, List.nodup_cons] at hnd
      exact hnd.2
    have hnmem : n ∉ rest.map Prod.fst := by
      rw [allDiff_iff_nodup, List.map_cons, List.nodup_cons] at hnd
      exact hnd.1
    have hfb : fuelBoundEntries ((n, t) :: rest) =
        1 + FSTree.fuelBound t + fuelBoundEntries rest := by
      simp [fuelBoundEntries]
    cases t with
    | file c =>
      have hdn : dirNames ((n, FSTree.file c) :: rest) = dirNames rest := by
        simp [dirNames, isDirT]
      rw [hdn, hfb]
      rw [survivorsFuel_cons_not_mem (fun d hd he => hnmem (by
        rw [show n = d from he]
        have := mem_dirNames_iff.mp hd
        obtain ⟨sub, hsub⟩ := this
        exact List.mem_map_of_mem Prod.fst hsub))]
      have := ih hnd'
      simp only [FSTree.fuelBound]
      omega
    | dir sub =>
      have hdn : dirNames ((n, FSTree.dir sub) :: rest) = n :: dirNames rest := by
        simp [dirNames, isDirT]
      rw [hdn, hfb]
      simp only [survivorsFuel]
      rw [lookupEntry_cons, if_pos rfl]
      rw [survivorsFuel_cons_not_mem (fun d hd he => hnmem (by
        rw [show n = d from he]
        obtain ⟨sub2, hsub2⟩ := mem_dirNames_iff.mp hd
        exact List.mem_map_of_mem Prod.fst hsub2))]
      have := ih hnd'
      dsimp only
      omega

/-- Joint idempotence of `_merge_directories_ignore_case` and its recursion
loop on already-reconciled well-formed trees, with an explicit fuel bound. -/
theorem mergeDirs_id (fuel : Nat) :
    (∀ bp es, wfListing es = true → reconciledListing es = true →
      fuelBoundEntries es + 2 ≤ fuel →
      mergeDirsIgnoreCase fuel bp es = .ok es) ∧
    (∀ bp ds es, wfListing es = true →
      (∀ d ∈ ds, d ∈ dirNames es) →
      reconTrees es = true →
      survivorsFuel es ds + 1 ≤ fuel →
      recurseSurvivors fuel bp ds es = .ok es) := by
  induction fuel using Nat.strong_induction_on with
  | _ fuel ihall =>
    constructor
    · intro bp es hwf hrec hfuel
      cases fuel with
      | zero => omega
      | succ fuel =>
        unfold reconciledListing at hrec
        rw [Bool.and_eq_true_iff] at hrec
        have hlow : ((dirNames es).map strToLower).Nodup :=
          (allDiff_iff_nodup _).mp hrec.1
        have hgs : ∀ p ∈ buildGroups (dirNames es), p.2.length ≤ 1 := by
          intro p hp
          rw [mem_buildGroups] at hp
          rw [hp.2]
          exact filter_lower_len_le_one hlow
        simp only [mergeDirsIgnoreCase]
        rw [processGroups_id (fuel + 1) bp _ es hgs]
        dsimp only
        rw [survivors_eq_names_of_reconciled hlow]
        have hsf := survivorsFuel_le_fuelBoundEntries es (wfListing_allDiff hwf)
        exact (ihall fuel (Nat.lt_succ_self fuel)).2 bp (dirNames es) es hwf
          (fun d hd => hd) hrec.2 (by omega)
    · intro bp ds es hwf hds hrt hfuel
      cases fuel with
      | zero => omega
      | succ fuel =>
        cases ds with
        | nil => simp [recurseSurvivors]
        | cons d ds =>
          obtain ⟨sub, hsub⟩ := mem_dirNames_iff.mp (hds d (List.mem_cons_self d ds))
          have hlk : lookupEntry es d = some (.dir sub) :=
            lookupEntry_of_mem (wfListing_allDiff hwf) hsub
          have hsubwf : wfListing sub = true := by
            have := wf_of_lookup hwf hlk
            rwa [wf_dir] at this
          have hsubrec : reconciledListing sub = true := by
            have := (reconTrees_iff es).mp hrt (d, FSTree.dir sub) hsub
            rwa [reconciled_dir] at this
          have hsf : survivorsFuel es (d :: ds) =
              1 + (2 + fuelBoundEntries sub) + survivorsFuel es ds := by
            simp only [survivorsFuel]
            rw [hlk]
            simp [FSTree.fuelBound]
          rw [hsf] at hfuel
          have hmd := (ihall fuel (Nat.lt_succ_self fuel)).1 (pathJoin bp d) sub
            hsubwf hsubrec (by omega)
          have hupd : updateEntry es d (FSTree.dir sub) = es :=
            updateEntry_self (wfListing_allDiff hwf) hlk
          simp only [recurseSurvivors]
          rw [hlk]
          dsimp only
          rw [hmd]
          dsimp only
          rw [hupd]
          exact (ihall fuel (Nat.lt_succ_self fuel)).2 bp ds es hwf
            (fun x hx => hds x (List.mem_cons_of_mem d hx)) hrt (by omega)

/-! ## Claim theorems -/

/-- C6: the Directory Reconciler is idempotent: on a well-formed tree that is
already reconciled (no two sibling directories anywhere share a case-folded
name), `_merge_directories_ignore_case` terminates normally (given fuel at
least the size bound of the tree) and leaves the tree exactly as it was: no
entry moved, removed, or renamed. -/
theorem c6_reconciler_idempotent (fuel : Nat) (bp : String)
    (es : List (String × FSTree)) (hwf : wfListing es = true)
    (hrec : reconciledListing es = true)
    (hfuel : fuelBoundEntries es + 2 ≤ fuel) :
    mergeDirsIgnoreCase fuel bp es = .ok es :=
  (mergeDirs_id fuel).1 bp es hwf hrec hfuel

theorem c6_reconciler_idempotent_witness :
    wfListing [("Apple", FSTree.dir [("b.txt", FSTree.file "x")]),
        ("note.txt", FSTree.file "n"), ("Box", FSTree.dir [])] = true ∧
    reconciledListing [("Apple", FSTree.dir [("b.txt", FSTree.file "x")]),
        ("note.txt", FSTree.file "n"), ("Box", FSTree.dir [])] = true ∧
    fuelBoundEntries [("Apple", FSTree.dir [("b.txt", FSTree.file "x")]),
        ("note.txt", FSTree.file "n"), ("Box", FSTree.dir [])] + 2 ≤ 100 ∧
    mergeDirsIgnoreCase 100 "/t"
        [("Apple", FSTree.dir [("b.txt", FSTree.file "x")]),
          ("note.txt", FSTree.file "n"), ("Box", FSTree.dir [])]
      = .ok [("Apple", FSTree.dir [("b.txt", FSTree.file "x")]),
          ("note.txt", FSTree.file "n"), ("Box", FSTree.dir [])] := by
  have hwf0 : wfListing [("Apple", FSTree.dir [("b.txt", FSTree.file "x")]),
      ("note.txt", FSTree.file "n"), ("Box", FSTree.dir [])] = true := by
    simp +decide [wfListing, wfTrees, FSTree.wf, allDiff]
  have hrec0 : reconciledListing [("Apple", FSTree.dir [("b.txt", FSTree.file "x")]),
      ("note.txt", FSTree.file "n"), ("Box", FSTree.dir [])] = true := by
    simp +decide [reconciledListing, reconTrees, FSTree.reconciled, allDiff,
      dirNames, isDirT, strToLower]
  have hfuel0 : fuelBoundEntries [("Apple", FSTree.dir [("b.txt", FSTree.file "x")]),
      ("note.txt", FSTree.file "n"), ("Box", FSTree.dir [])] + 2 ≤ 100 := by
    simp [fuelBoundEntries, FSTree.fuelBound]
  exact ⟨hwf0, hrec0, hfuel0,
    c6_reconciler_idempotent 100 "/t" _ hwf0 hrec0 hfuel0⟩

/-- C5: on every well-formed directory tree on which
`_merge_directories_ignore_case` terminates normally, the resulting tree is
reconciled: at every depth, no two distinct sibling directories share a
case-folded (lower-cased) name. -/
theorem c5_reconciler_invariant (fuel : Nat) (bp : String)
    (es es' : List (String × FSTree)) (hwf : wfListing es = true)
    (h : mergeDirsIgnoreCase fuel bp es = .ok es') :
    reconciledListing es' = true :=
  ((mergeDirs_reconciles fuel).1 bp es es' hwf h).1

theorem c5_reconciler_invariant_witness :
    wfListing [("Foo", FSTree.dir []), ("foo", FSTree.dir [])] = true ∧
    mergeDirsIgnoreCase 10 "/t" [("Foo", FSTree.dir []), ("foo", FSTree.dir [])]
      = .ok [("Foo", FSTree.dir [])] ∧
    reconciledListing [("Foo", FSTree.dir [])] = true := by
  have hwf0 : wfListing [("Foo", FSTree.dir []), ("foo", FSTree.dir [])] = true := by
    simp +decide [wfListing, wfTrees, FSTree.wf, allDiff]
  have hrun : mergeDirsIgnoreCase 10 "/t"
      [("Foo", FSTree.dir []), ("foo", FSTree.dir [])]
        = .ok [("Foo", FSTree.dir [])] := by
    simp +decide [mergeDirsIgnoreCase, recurseSurvivors, processGroups, mergeRemotes,
      mergeFiles, buildGroups, dedupFirst, dirNames, strToLower, groupTarget,
      groupSurvivors, lookupEntry, updateEntry, removeEntry, pathJoin, isDirT]
  exact ⟨hwf0, hrun, c5_reconciler_invariant 10 "/t" _ _ hwf0 hrun⟩

/-- C10: the reconciler groups and merges only directories: plain-file
entries of a well-formed listing are still present, with the same name and
contents, after a successful run; in particular two sibling files whose names
differ only by case are both left in place. -/
theorem c10_files_untouched (fuel : Nat) (bp : String)
    (es es' : List (String × FSTree)) (hwf : wfListing es = true)
    (h : mergeDirsIgnoreCase fuel bp es = .ok es') :
    ∀ n c, (n, FSTree.file c) ∈ es → (n, FSTree.file c) ∈ es' := by
  intro n c hmem
  have MD := (mergeDirs_reconciles fuel).1 bp es es' hwf h
  rw [mem_file_shape, MD.2.2, List.mem_filter]
  refine ⟨mem_file_shape.mp hmem, ?_⟩
  rw [decide_eq_true_eq]
  intro hrem
  obtain ⟨sub, hsub⟩ := mem_dirNames_iff.mp (removedNames_subset hrem)
  have h1 := lookupEntry_of_mem (wfListing_allDiff hwf) hmem
  have h2 := lookupEntry_of_mem (wfListing_allDiff hwf) hsub
  rw [h1] at h2
  simp at h2

theorem c10_files_untouched_witness :
    wfListing [("Foo.txt", FSTree.file "1"), ("foo.txt", FSTree.file "2")] = true ∧
    mergeDirsIgnoreCase 5 "/t"
        [("Foo.txt", FSTree.file "1"), ("foo.txt", FSTree.file "2")]
      = .ok [("Foo.txt", FSTree.file "1"), ("foo.txt", FSTree.file "2")] ∧
    ("Foo.txt", FSTree.file "1") ∈
      [("Foo.txt", FSTree.file "1"), ("foo.txt", FSTree.file "2")] ∧
    ("foo.txt", FSTree.file "2") ∈
      [("Foo.txt", FSTree.file "1"), ("foo.txt", FSTree.file "2")] := by
  have hwf0 : wfListing [("Foo.txt", FSTree.file "1"), ("foo.txt", FSTree.file "2")]
      = true := by
    simp +decide [wfListing, wfTrees, FSTree.wf, allDiff]
  have hrun : mergeDirsIgnoreCase 5 "/t"
      [("Foo.txt", FSTree.file "1"), ("foo.txt", FSTree.file "2")]
        = .ok [("Foo.txt", FSTree.file "1"), ("foo.txt", FSTree.file "2")] := by
    simp +decide [mergeDirsIgnoreCase, recurseSurvivors, processGroups, mergeRemotes,
      mergeFiles, buildGroups, dedupFirst, dirNames, strToLower, groupTarget,
      groupSurvivors, lookupEntry, updateEntry, removeEntry, pathJoin, isDirT]
  exact ⟨hwf0, hrun,
    c10_files_untouched 5 "/t" _ _ hwf0 hrun "Foo.txt" "1" (by simp),
    c10_files_untouched 5 "/t" _ _ hwf0 hrun "foo.txt" "2" (by simp)⟩

/-- C2: for every filename, `extract_archive` raises `UnknownArchiveError`
exactly when the lower-cased effective extension (the `splitext` extension, or
the `override_extension` value when that flag is set) is absent from the
static extension-to-strategy table, and for an extension present in the table
the unique registered strategy is invoked with the full path. -/
theorem c2_dispatcher_unknown_iff_unregistered (use7zForZip : Bool)
    (overrideExt : Option String) (filename : String) :
    ((extractArchive use7zForZip overrideExt filename).isOk = false ↔
      createExtractorsMapping use7zForZip
        (strToLower (effectiveExtension overrideExt filename)) = none) ∧
    ((extractArchive use7zForZip overrideExt filename).isOk = false →
      extractArchive use7zForZip overrideExt filename =
        .error (.unknownArchive
          (strToLower (effectiveExtension overrideExt filename)))) ∧
    ∀ s, createExtractorsMapping use7zForZip
        (strToLower (effectiveExtension overrideExt filename)) = some s →
      extractArchive use7zForZip overrideExt filename = .ok (s, filename) := by
  unfold extractArchive
  cases h : createExtractorsMapping use7zForZip
      (strToLower (effectiveExtension overrideExt filename)) with
  | none => simp [h, Except.isOk, Except.toBool]
  | some s => simp [h, Except.isOk, Except.toBool]

theorem c2_dispatcher_unknown_iff_unregistered_witness :
    createExtractorsMapping true
      (strToLower (effectiveExtension none "/tmp/a.ZIP")) = some Strategy.sevenZ ∧
    extractArchive true none "/tmp/a.ZIP" = .ok (Strategy.sevenZ, "/tmp/a.ZIP") ∧
    createExtractorsMapping true
      (strToLower (effectiveExtension none "/tmp/a.txt")) = none ∧
    extractArchive true none "/tmp/a.txt" = .error (.unknownArchive ".txt") := by
  refine ⟨by rfl, ?_, by rfl, ?_⟩
  · exact (c2_dispatcher_unknown_iff_unregistered true none "/tmp/a.ZIP").2.2
      Strategy.sevenZ (by rfl)
  · have := (c2_dispatcher_unknown_iff_unregistered true none "/tmp/a.txt").2.1
      (by rfl)
    exact this

/-- C3: whatever `main` does to the workspace and however it exits (normal
return, `UnknownArchiveError`, or `MergeFailureError`), `_tmpdir_wrapper`
recursively deletes the temporary workspace before returning, and the outcome
of `main` is propagated unchanged. -/
theorem c3_workspace_always_removed
    (runMain : List (String × FSTree) → Except AppExc Unit × List (String × FSTree)) :
    (tmpdirWrapper runMain).workspace = none ∧
    (tmpdirWrapper runMain).result = (runMain []).1 := by
  unfold tmpdirWrapper
  exact ⟨removedirs_eq_none _, rfl⟩

/-- C4: the claim does not hold as stated: when the source directory holds an
entry that exists only there, listed before the file/directory mismatch, the
`s.path.join` typo raises `NameError` before the mismatch is ever reached
(first conjunct).  The mismatch handling itself is as the claim says: when the
mismatched entry is processed, `MergeFailureError` naming both colliding paths
is raised (second conjunct, the claim's `A/x` file, `B/x` directory fixture). -/
theorem c4_mismatch_merge_nameError_preempts :
    (mergeFiles 10 "/t/B" "/t/A" [("y.txt", .file "Y"), ("x", .dir [])]
        [("x", .file "F")]).exc = some .nameError ∧
    (mergeFiles 10 "/t/B" "/t/A" [("x", .dir [])] [("x", .file "F")]).exc
      = some (.mergeFailure "/t/A/x" "/t/B/x") := by
  exact ⟨rfl, rfl⟩

/-- C7: `_get_password` returns the whitespace-stripped contents of
`<path>.password` whenever that file exists (so the archive-specific file
always wins); otherwise the stripped contents of `passwd.txt` in the
archive's directory when that exists; otherwise no password, and that is not
an error. -/
theorem c7_password_resolution (readFile : String → Option String) (path : String) :
    (∀ c, readFile (path ++ ".password") = some c →
      getPassword readFile path = some (pyStrip c)) ∧
    (readFile (path ++ ".password") = none →
      (∀ c, readFile (pathJoin (osPathDirname path) "passwd.txt") = some c →
        getPassword readFile path = some (pyStrip c)) ∧
      (readFile (pathJoin (osPathDirname path) "passwd.txt") = none →
        getPassword readFile path = none)) := by
  refine ⟨fun c hc => ?_, fun h1 => ⟨fun c hc => ?_, fun h2 => ?_⟩⟩ <;>
    simp [getPassword, getPassword.go, *]

theorem c7_password_resolution_witness :
    (fun f => if f = "/arc/x.rar.password" then some " pw1 "
      else if f = "/arc/passwd.txt" then some "pw2" else none)
        ("/arc/x.rar" ++ ".password") = some " pw1 " ∧
    getPassword
      (fun f => if f = "/arc/x.rar.password" then some " pw1 "
        else if f = "/arc/passwd.txt" then some "pw2" else none)
      "/arc/x.rar" = some (pyStrip " pw1 ") := by
  refine ⟨by rfl, ?_⟩
  exact (c7_password_resolution
    (fun f => if f = "/arc/x.rar.password" then some " pw1 "
      else if f = "/arc/passwd.txt" then some "pw2" else none)
    "/arc/x.rar").1 " pw1 " (by rfl)

/-- C9: whenever `_merge_files_in_directories` raises (a merge failure, the
`NameError` of the typo, the entry assertion, or any other modelled
exception), the source directory itself still exists: `os.rmdir(remote_dir)`
runs only after every entry has been processed successfully. -/
theorem c9_source_dir_survives_error (fuel : Nat) (rp lp : String)
    (remote locl : List (String × FSTree))
    (h : (mergeFiles fuel rp lp remote locl).exc ≠ none) :
    (mergeFiles fuel rp lp remote locl).remote ≠ none := by
  induction fuel generalizing rp lp remote locl with
  | zero => simp [mergeFiles]
  | succ fuel ih =>
    rw [mergeFiles.eq_def] at h ⊢
    simp only at h ⊢
    by_cases hrl : rp = lp
    · simp [hrl]
    · simp only [if_neg hrl] at h ⊢
      cases remote with
      | nil => simp at h
      | cons hd rest =>
        obtain ⟨name, t⟩ := hd
        cases hl : lookupEntry locl name with
        | none => simp [hl]
        | some u =>
          simp only [hl] at h ⊢
          cases t with
          | file c =>
            cases u with
            | file c2 => exact ih _ _ _ _ h
            | dir lents => simp
          | dir rents =>
            cases u with
            | file c2 => simp
            | dir lents =>
              simp only at h ⊢
              cases hinner :
                  (mergeFiles fuel (pathJoin rp name) (pathJoin lp name) rents lents).exc with
              | none => simp only [hinner] at h ⊢; exact ih _ _ _ _ h
              | some e => simp [hinner]

theorem c9_source_dir_survives_error_witness :
    (mergeFiles 10 "/t/B" "/t/A" [("b.txt", FSTree.file "B")]
        [("a.txt", FSTree.file "A")]).exc ≠ none ∧
    (mergeFiles 10 "/t/B" "/t/A" [("b.txt", FSTree.file "B")]
        [("a.txt", FSTree.file "A")]).remote ≠ none := by
  refine ⟨by decide, ?_⟩
  exact c9_source_dir_survives_error 10 "/t/B" "/t/A"
    [("b.txt", FSTree.file "B")] [("a.txt", FSTree.file "A")] (by decide)

/-- C1: the claim is refuted by the code: on the spec's own fixture --
sibling directories `Foo` holding only `a.txt` and `foo` holding only `b.txt`
-- `_merge_directories_ignore_case` does not terminate normally.  Moving
`b.txt` (an entry that exists only in the source) executes the
entry-only-in-source branch, whose `s.path.join` typo (line 193; the name `s`
is undefined) raises `NameError`, so no file is ever moved and the merge
never completes. -/
theorem c1_reconciler_fixture_raises_nameError :
    mergeDirsIgnoreCase 10 "/t"
        [("Foo", FSTree.dir [("a.txt", FSTree.file "A")]),
          ("foo", FSTree.dir [("b.txt", FSTree.file "B")])]
      = .error .nameError := by
  simp +decide [mergeDirsIgnoreCase, recurseSurvivors, processGroups, mergeRemotes,
    mergeFiles, buildGroups, dedupFirst, dirNames, strToLower, groupTarget,
    groupSurvivors, lookupEntry, updateEntry, removeEntry, pathJoin, isDirT]

/-- C8: `_get_minimal_common_directory` returns the first directory on the
top-down walk that contains at least one plain file or does not contain
exactly one subdirectory -- equivalently (first conjunct) it chases the chain
of single-subdirectory levels from the root and returns the deepest directory
that finally holds files or branches, as described by the spec-side
`chaseCommonRoot`; and (second conjunct) when the walk yields nothing the
loop falls back to the last directory visited. -/
theorem c8_minimal_common_directory_chase (basePath : String)
    (es : List (String × FSTree)) :
    minimalCommonDirectory basePath es = chaseCommonRoot basePath es ∧
    ∀ lastDir, walkLoop lastDir [] = lastDir := by
  exact ⟨walkLoop_walkFrom_eq_chase basePath es basePath, fun _ => rfl⟩

end TempExtract
